import Mathlib

/-!
Verification of the database-repair script (repair_database.py).

The script scans paginated records from a remote store, repairs corrupted
title fields (mojibake and literal question-mark substitutions) first via a
static substring-replacement dictionary and then, if corruption markers
remain, via a generative-text oracle, and patches changed titles back.

Python strings are modelled as `List Char` (lists of Unicode code points);
`None` and the empty string, which the script only ever distinguishes by
falsiness, are both modelled as `[]`.  Network effects are modelled by an
explicit environment (`Env`) giving the responses of the store and of the
oracle; instrumentation counters (number of oracle calls, number of PATCH
requests, trace of processed pages) are added so that call-counting
properties can be stated.
-/

namespace RepairDB

/-- Python's substring test `pat in s` on strings, scanning left to right. -/
def occurs (pat : List Char) : List Char → Bool
  | [] => pat.isEmpty
  | c :: rest => pat.isPrefixOf (c :: rest) || occurs pat rest

/-- One left-to-right, non-overlapping scan of Python's `s.replace(pat, rep)`:
at each position, if `pat` starts there it is consumed and `rep` emitted,
otherwise one character is copied.  `fuel` bounds the recursion; since each
step consumes at least one character of `s` (for nonempty `pat`),
`fuel = s.length` computes the full replacement. -/
def replaceAux (pat rep : List Char) : Nat → List Char → List Char
  | _, [] => []
  | 0, s => s
  | fuel + 1, c :: rest =>
    if pat.isPrefixOf (c :: rest) then
      rep ++ replaceAux pat rep fuel ((c :: rest).drop pat.length)
    else
      c :: replaceAux pat rep fuel rest

/-- Python's `s.replace(pat, rep)` (replace every occurrence, left to right). -/
def pyReplace (s pat rep : List Char) : List Char :=
  replaceAux pat rep s.length s

/-- Python's `s.strip()`: drop leading and trailing whitespace. -/
def pyStrip (s : List Char) : List Char :=
  ((s.dropWhile Char.isWhitespace).reverse.dropWhile Char.isWhitespace).reverse

/-- The `MANUAL_FIXES` dictionary of the script, in its (insertion-ordered)
iteration order.  The ninth key is the character `Ã` followed by a plain
space, exactly as in the source. -/
def MANUAL_FIXES : List (List Char × List Char) :=
  [("Gro?njan".toList, "Grožnjan".toList),
   ("V?rsar".toList, "Vrsar".toList),
   ("Pore?".toList, "Poreč".toList),
   ("Rovin?".toList, "Rovinj".toList),
   ("Motov?n".toList, "Motovun".toList),
   ("Ã¨".toList, "è".toList),
   ("Ã©".toList, "é".toList),
   ("â€™".toList, "’".toList),
   ("Ã ".toList, "à".toList),
   ("Ã¹".toList, "ù".toList),
   ("Ã¬".toList, "ì".toList),
   ("Ã²".toList, "ò".toList),
   ("Caf?".toList, "Café".toList),
   ("Fa?ade".toList, "Façade".toList),
   ("Entr?e".toList, "Entrée".toList),
   ("Pi?a".toList, "Piña".toList)]

/-- The body of the dictionary loop of `sanitize_text`:
`if broken in text: text = text.replace(broken, fixed)`. -/
def fixStep (t : List Char) (q : List Char × List Char) : List Char :=
  if occurs q.1 t then pyReplace t q.1 q.2 else t

/-- The dictionary pass of `sanitize_text`: apply every `MANUAL_FIXES` entry
in iteration order. -/
def applyFixes (text : List Char) : List Char :=
  MANUAL_FIXES.foldl fixStep text

/-- Outcome of the HTTP call made by `ask_gemini_to_fix`:
either some exception was raised during the call or while extracting the
first candidate (`exn`), or a response arrived with the given status code
and, when the JSON carried a `candidates` key, the list of candidate texts
(`none` models an absent `candidates` key). -/
inductive OracleOutcome where
  | exn : OracleOutcome
  | response : Nat → Option (List (List Char)) → OracleOutcome

/-- `ask_gemini_to_fix(text)` given the outcome of its HTTP call.  On a 200
response with a nonempty candidate list, the first candidate is stripped of
surrounding whitespace; if its length differs from the input's length by
more than 5, the original input is returned, otherwise the stripped
candidate with every double-quote character removed.  In every other case
(exception, non-200 status, absent or empty candidate list) the original
input is returned; no failure propagates to the caller. -/
def ask_gemini_to_fix (out : OracleOutcome) (text : List Char) : List Char :=
  match out with
  | .exn => text
  | .response status cands =>
    if status = 200 then
      match cands with
      | some (c :: _) =>
        let fixed := pyStrip c
        if 5 < ((fixed.length : Int) - (text.length : Int)).natAbs then text
        else pyReplace fixed ['\"'] []
      | some [] => text
      | none => text
    else text

/-- `sanitize_text(text)`.  `respOf q` is the outcome of the oracle's HTTP
call when queried about text `q`.  The second component counts the oracle
invocations made (0 or 1); in the script each such invocation is followed by
exactly one unconditional `time.sleep(1)` rate-limit delay, so it also
counts the delays. -/
def sanitize_text (respOf : List Char → OracleOutcome) (text : List Char) :
    List Char × Nat :=
  if text = [] then (text, 0)
  else
    let t := applyFixes text
    if occurs ['?'] t || occurs ['Ã'] t then
      (ask_gemini_to_fix (respOf t) t, 1)
    else (t, 0)

/-- A record of the `places` table: `id`, `title`, `description`. -/
structure Place where
  id : Nat
  title : List Char
  description : List Char
deriving DecidableEq

/-- The two remote services, as response functions:
`fetchResp offset limit` is the status code and body of the paginated GET;
`respOf q` is the outcome of the oracle call on query `q`;
`patch id payload` is the status code of the PATCH of `payload` to record
`id`. -/
structure Env where
  fetchResp : Nat → Nat → Nat × List Place
  respOf : List Char → OracleOutcome
  patch : Nat → List (String × List Char) → Nat

/-- `fetch_places(offset, limit)`: a non-200 response is logged and yields
`[]`, otherwise the returned page. -/
def fetch_places (env : Env) (offset limit : Nat) : List Place :=
  let r := env.fetchResp offset limit
  if r.1 ≠ 200 then [] else r.2

/-- The partial-update payload built by `update_place`: a field is included
exactly when its value is truthy (nonempty). -/
def updatePayload (title description : List Char) : List (String × List Char) :=
  (if title ≠ [] then [("title", title)] else []) ++
  (if description ≠ [] then [("description", description)] else [])

/-- `update_place(place_id, title, description)`.  Returns the reported
success together with the number of PATCH requests issued (0 or 1): with an
empty payload no network call is made and `False` is returned; otherwise
success means the store answered 200 or 204. -/
def update_place (env : Env) (place_id : Nat) (title description : List Char) :
    Bool × Nat :=
  let payload := updatePayload title description
  if payload = [] then (false, 0)
  else (decide (env.patch place_id payload ∈ ([200, 204] : List Nat)), 1)

/-- The per-record body of `main`'s inner loop: increment `total_scanned`,
sanitize the title and, when the title is truthy and changed, write it back,
incrementing `total_fixed` exactly when the write reports success. -/
def processPlace (env : Env) (counters : Nat × Nat) (place : Place) : Nat × Nat :=
  let total_scanned := counters.1 + 1
  let new_title := (sanitize_text env.respOf place.title).1
  if place.title ≠ [] ∧ place.title ≠ new_title then
    if (update_place env place.id new_title []).1 then (total_scanned, counters.2 + 1)
    else (total_scanned, counters.2)
  else (total_scanned, counters.2)

/-- The inner `for place in places` loop of `main`. -/
def processPage (env : Env) (counters : Nat × Nat) (places : List Place) : Nat × Nat :=
  places.foldl (processPlace env) counters

/-- `batch_size` of `main`. -/
def batch_size : Nat := 1000

/-- The `while True` pagination loop of `main`, starting at the given offset
and counters `(total_scanned, total_fixed)`.  `fuel` bounds the number of
iterations (`none` means the loop did not finish within `fuel` pages); the
third component of the result is the trace of pages that were processed,
as `(offset, page)` pairs, in order.  An empty fetched page breaks the loop
before processing; a processed page shorter than `batch_size` breaks it
after processing; otherwise the offset advances by `batch_size`. -/
def mainLoop (env : Env) : Nat → Nat → Nat × Nat →
    Option (Nat × Nat × List (Nat × List Place))
  | 0, _, _ => none
  | fuel + 1, offset, counters =>
    let places := fetch_places env offset batch_size
    if places = [] then some (counters.1, counters.2, [])
    else
      let c := processPage env counters places
      if places.length < batch_size then some (c.1, c.2, [(offset, places)])
      else
        match mainLoop env fuel (offset + batch_size) c with
        | none => none
        | some (s, f, tr) => some (s, f, (offset, places) :: tr)

/-- `main()`: run the pagination loop from offset 0 with zeroed counters. -/
def main (env : Env) (fuel : Nat) : Option (Nat × Nat × List (Nat × List Place)) :=
  mainLoop env fuel 0 (0, 0)

/-- A scanned record counts as fixed exactly when its title is truthy, the
sanitized title differs, and the write-back reports success. -/
def wasFixed (env : Env) (place : Place) : Bool :=
  let new_title := (sanitize_text env.respOf place.title).1
  decide (place.title ≠ []) && decide (place.title ≠ new_title) &&
    (update_place env place.id new_title []).1

/-- A store that is empty (one empty 200 page), an oracle whose call always
raises, and a store that rejects every PATCH. -/
def testEnvA : Env :=
  { fetchResp := fun _ _ => (200, [])
    respOf := fun _ => OracleOutcome.exn
    patch := fun _ _ => 404 }

/-- An empty store, an oracle that answers 200 with one empty candidate
text, and a store that acknowledges every PATCH with 204. -/
def testEnvB : Env :=
  { fetchResp := fun _ _ => (200, [])
    respOf := fun _ => OracleOutcome.response 200 (some [[]])
    patch := fun _ _ => 204 }

/-! ## Helper lemmas -/

theorem occurs_iff (pat : List Char) : ∀ s : List Char,
    occurs pat s = true ↔ pat <:+: s := by
  intro s
  induction s with
  | nil => simp [occurs, List.isEmpty_iff]
  | cons c rest ih =>
    rw [occurs, Bool.or_eq_true, ih, List.infix_cons_iff, List.isPrefixOf_iff_prefix]

theorem occurs_eq_false (pat s : List Char) (h : ¬ pat <:+: s) :
    occurs pat s = false := by
  rw [← Bool.not_eq_true, occurs_iff]; exact h

theorem occurs_singleton (a : Char) (s : List Char) :
    occurs [a] s = true ↔ a ∈ s := by
  rw [occurs_iff]
  constructor
  · intro h
    exact h.subset (List.mem_singleton_self a)
  · intro h
    obtain ⟨s₁, s₂, rfl⟩ := List.append_of_mem h
    exact ⟨s₁, s₂, by simp⟩

theorem occurs_singleton_false (a : Char) (s : List Char) (h : a ∉ s) :
    occurs [a] s = false := by
  rw [← Bool.not_eq_true, occurs_singleton]; exact h

/-- The value returned on the accepted-candidate path of `ask_gemini_to_fix`
(`fixed.replace('"', '')`) contains no double-quote character: the
replacement removes every occurrence, not only surrounding ones. -/
theorem replaceAux_no_quote : ∀ fuel : Nat, ∀ s : List Char,
    s.length ≤ fuel → '\"' ∉ replaceAux ['\"'] [] fuel s := by
  intro fuel
  induction fuel with
  | zero =>
    intro s hs
    have hnil : s = [] := List.length_eq_zero.mp (Nat.le_zero.mp hs)
    subst hnil
    simp [replaceAux]
  | succ fuel ih =>
    intro s hs
    match s with
    | [] => simp [replaceAux]
    | c :: rest =>
      have hrest : rest.length ≤ fuel := by
        simp only [List.length_cons] at hs; omega
      rw [replaceAux]
      by_cases hp : (['\"'] : List Char).isPrefixOf (c :: rest)
      · rw [if_pos hp]
        simpa using ih rest hrest
      · rw [if_neg hp]
        intro hmem
        rcases List.mem_cons.mp hmem with h | h
        · exact hp (by simp [List.isPrefixOf, ← h])
        · exact ih rest hrest h

/-- If no dictionary entry's key occurs in `t`, the dictionary loop leaves
`t` unchanged. -/
theorem foldl_fixStep_id : ∀ L : List (List Char × List Char), ∀ t : List Char,
    (∀ q ∈ L, occurs q.1 t = false) → L.foldl fixStep t = t := by
  intro L
  induction L with
  | nil => intro t _; rfl
  | cons q L ih =>
    intro t h
    have hq := h q (List.mem_cons_self q L)
    rw [List.foldl_cons, fixStep, hq]
    simp only [Bool.false_eq_true, if_false]
    exact ih t (fun p hp => h p (List.mem_cons_of_mem q hp))

/-- If exactly the entry `(k, r)` of the dictionary matches — no earlier key
occurs in `t` and no later key occurs in the replaced text — then the
dictionary loop performs exactly the single replacement `t.replace(k, r)`. -/
theorem foldl_fixStep_single (t k r : List Char)
    (L₂ : List (List Char × List Char)) : ∀ L₁ : List (List Char × List Char),
    (∀ q ∈ L₁, occurs q.1 t = false) → occurs k t = true →
    (∀ q ∈ L₂, occurs q.1 (pyReplace t k r) = false) →
    (L₁ ++ (k, r) :: L₂).foldl fixStep t = pyReplace t k r := by
  intro L₁
  induction L₁ with
  | nil =>
    intro _ hk h₂
    rw [List.nil_append, List.foldl_cons, fixStep, hk]
    simp only [if_true]
    exact foldl_fixStep_id L₂ _ h₂
  | cons q L₁ ih =>
    intro h₁ hk h₂
    have hq := h₁ q (List.mem_cons_self q L₁)
    rw [List.cons_append, List.foldl_cons, fixStep, hq]
    simp only [Bool.false_eq_true, if_false]
    exact ih (fun p hp => h₁ p (List.mem_cons_of_mem q hp)) hk h₂

/-- A word none of whose characters occur in `a` and which occurs in
`a ++ b` occurs in `b`. -/
theorem infix_split_left {w b : List Char} : ∀ a : List Char, w ≠ [] →
    (∀ c ∈ a, c ∉ w) → w <:+: a ++ b → w <:+: b := by
  intro a
  induction a with
  | nil => intro _ _ h; simpa using h
  | cons x a ih =>
    intro hw hdisj h
    rw [List.cons_append, List.infix_cons_iff] at h
    rcases h with hpre | hinf
    · match w, hw with
      | d :: w', _ =>
        rw [List.cons_prefix_cons] at hpre
        exact absurd (hpre.1 ▸ List.mem_cons_self d w')
          (hdisj x (List.mem_cons_self x a))
    · exact ih hw (fun c hc => hdisj c (List.mem_cons_of_mem x hc)) hinf

/-- If `w` shares no character with the replacement text `rep`, a prefix of
the replaced string that equals `w` is a prefix of the original string. -/
theorem replaceAux_pre_transfer (pat rep : List Char) (hrep : rep ≠ []) :
    ∀ fuel : Nat, ∀ t w : List Char, t.length ≤ fuel →
    (∀ c ∈ rep, c ∉ w) → w <+: replaceAux pat rep fuel t → w <+: t := by
  intro fuel
  induction fuel with
  | zero =>
    intro t w ht _ h
    have hnil : t = [] := List.length_eq_zero.mp (Nat.le_zero.mp ht)
    subst hnil
    simpa [replaceAux] using h
  | succ fuel ih =>
    intro t w ht hdisj h
    match t with
    | [] => simpa [replaceAux] using h
    | c :: rest =>
      have hrest : rest.length ≤ fuel := by
        simp only [List.length_cons] at ht; omega
      rw [replaceAux] at h
      by_cases hp : pat.isPrefixOf (c :: rest)
      · rw [if_pos hp] at h
        match w with
        | [] => exact ⟨c :: rest, rfl⟩
        | d :: w' =>
          exfalso
          match rep, hrep with
          | e :: rep', _ =>
            rw [List.cons_append, List.cons_prefix_cons] at h
            exact hdisj e (List.mem_cons_self e rep')
              (h.1 ▸ List.mem_cons_self d w')
      · rw [if_neg hp] at h
        match w with
        | [] => exact ⟨c :: rest, rfl⟩
        | d :: w' =>
          rw [List.cons_prefix_cons] at h
          rcases h with ⟨rfl, h'⟩
          have hw' : w' <+: rest :=
            ih rest w' hrest
              (fun e he hmem => hdisj e he (List.mem_cons_of_mem d hmem)) h'
          exact List.cons_prefix_cons.mpr ⟨rfl, hw'⟩

/-- If `w` is nonempty and shares no character with the replacement text
`rep`, every occurrence of `w` in the replaced string comes from an
occurrence in the original string.  (Used for the one dictionary key that
contains neither corruption marker.) -/
theorem replaceAux_inf_transfer (pat rep w : List Char) (hpat : pat ≠ [])
    (hrep : rep ≠ []) (hw : w ≠ []) (hdisj : ∀ c ∈ rep, c ∉ w) :
    ∀ fuel : Nat, ∀ t : List Char, t.length ≤ fuel →
    w <:+: replaceAux pat rep fuel t → w <:+: t := by
  intro fuel
  induction fuel with
  | zero =>
    intro t ht h
    have hnil : t = [] := List.length_eq_zero.mp (Nat.le_zero.mp ht)
    subst hnil
    simpa [replaceAux] using h
  | succ fuel ih =>
    intro t ht h
    match t with
    | [] => simpa [replaceAux] using h
    | c :: rest =>
      have hrest : rest.length ≤ fuel := by
        simp only [List.length_cons] at ht; omega
      rw [replaceAux] at h
      by_cases hp : pat.isPrefixOf (c :: rest)
      · rw [if_pos hp] at h
        have h' : w <:+: replaceAux pat rep fuel ((c :: rest).drop pat.length) :=
          infix_split_left rep hw hdisj h
        have hlen : ((c :: rest).drop pat.length).length ≤ fuel := by
          have hppos : 0 < pat.length := List.length_pos.mpr hpat
          simp only [List.length_drop, List.length_cons]
          omega
        have h'' : w <:+: (c :: rest).drop pat.length := ih _ hlen h'
        exact h''.trans (List.drop_suffix pat.length (c :: rest)).isInfix
      · rw [if_neg hp] at h
        rw [List.infix_cons_iff] at h
        rcases h with hpre | hinf
        · match w, hw with
          | d :: w', _ =>
            rw [List.cons_prefix_cons] at hpre
            rcases hpre with ⟨rfl, h'⟩
            have hw' : w' <+: rest :=
              replaceAux_pre_transfer pat rep hrep fuel rest w' hrest
                (fun e he hmem => hdisj e he (List.mem_cons_of_mem d hmem)) h'
            exact (List.cons_prefix_cons.mpr ⟨rfl, hw'⟩).isInfix
        · exact (ih rest hrest hinf).trans (List.infix_cons (List.infix_refl rest))

/-- `pyReplace` version of `replaceAux_inf_transfer`. -/
theorem pyReplace_inf_transfer (t pat rep w : List Char) (hpat : pat ≠ [])
    (hrep : rep ≠ []) (hw : w ≠ []) (hdisj : ∀ c ∈ rep, c ∉ w)
    (h : w <:+: pyReplace t pat rep) : w <:+: t :=
  replaceAux_inf_transfer pat rep w hpat hrep hw hdisj t.length t
    (Nat.le_refl t.length) h

/-- Concrete facts about the dictionary: every key and value is nonempty;
every key contains a corruption marker (`?` or `Ã`) except the key `â€™`;
and no value contains any character of `â€™`. -/
theorem manual_fixes_facts : ∀ p ∈ MANUAL_FIXES,
    (p.1 ≠ [] ∧ p.2 ≠ []) ∧ ('?' ∈ p.1 ∨ 'Ã' ∈ p.1 ∨ p.1 = "â€™".toList) ∧
    (∀ c ∈ p.2, c ∉ ("â€™".toList : List Char)) := by decide

/-- The dictionary keys are pairwise distinct. -/
theorem manual_fixes_keys_nodup : (MANUAL_FIXES.map Prod.fst).Nodup := by decide

/-- If exactly one dictionary key `k` occurs in `text` and the replaced text
`text.replace(k, r)` contains no residual corruption marker, then the
dictionary pass performs exactly that one replacement. -/
theorem applyFixes_single (text k r : List Char)
    (hkr : (k, r) ∈ MANUAL_FIXES) (hk : k <:+: text)
    (huniq : ∀ q ∈ MANUAL_FIXES, q.1 ≠ k → ¬ q.1 <:+: text)
    (hq : '?' ∉ pyReplace text k r) (hA : 'Ã' ∉ pyReplace text k r) :
    applyFixes text = pyReplace text k r := by
  obtain ⟨L₁, L₂, hdec⟩ := List.append_of_mem hkr
  have hnodup := manual_fixes_keys_nodup
  rw [hdec, List.map_append, List.map_cons] at hnodup
  have hknotin : k ∉ (L₁.map Prod.fst ++ L₂.map Prod.fst) :=
    (List.nodup_cons.mp (List.nodup_middle.mp hnodup)).1
  have h₁ : ∀ q ∈ L₁, occurs q.1 text = false := by
    intro q hq1
    apply occurs_eq_false
    apply huniq q (by rw [hdec]; exact List.mem_append_left _ hq1)
    intro hEq
    exact hknotin (List.mem_append_left _ (hEq ▸ List.mem_map_of_mem Prod.fst hq1))
  have hR : ∀ q ∈ L₂, occurs q.1 (pyReplace text k r) = false := by
    intro q hq2
    apply occurs_eq_false
    intro hinf
    have hqmem : q ∈ MANUAL_FIXES := by
      rw [hdec]; exact List.mem_append_right _ (List.mem_cons_of_mem _ hq2)
    have hqne : q.1 ≠ k := by
      intro hEq
      exact hknotin
        (List.mem_append_right _ (hEq ▸ List.mem_map_of_mem Prod.fst hq2))
    rcases (manual_fixes_facts q hqmem).2.1 with hmark | hmark | hmoji
    · exact hq (hinf.subset hmark)
    · exact hA (hinf.subset hmark)
    · rw [hmoji] at hinf
      obtain ⟨⟨hkne, hrne⟩, _, hdisj⟩ := manual_fixes_facts (k, r) hkr
      have htr : ("â€™".toList : List Char) <:+: text :=
        pyReplace_inf_transfer text k r _ hkne hrne (by decide) hdisj hinf
      exact huniq ("â€™".toList, "’".toList) (by decide) (hmoji ▸ hqne) htr
  rw [applyFixes, hdec]
  exact foldl_fixStep_single text k r L₂ L₁ h₁ ((occurs_iff k text).mpr hk) hR

theorem mainLoop_zero (env : Env) (offset : Nat) (c : Nat × Nat) :
    mainLoop env 0 offset c = none := rfl

theorem mainLoop_succ (env : Env) (fuel offset : Nat) (c : Nat × Nat) :
    mainLoop env (fuel + 1) offset c =
      (let places := fetch_places env offset batch_size
       if places = [] then some (c.1, c.2, [])
       else
         let c' := processPage env c places
         if places.length < batch_size then some (c'.1, c'.2, [(offset, places)])
         else
           match mainLoop env fuel (offset + batch_size) c' with
           | none => none
           | some (s, f, tr) => some (s, f, (offset, places) :: tr)) := rfl

/-- Each record contributes exactly 1 to `total_scanned`, and exactly 1 to
`total_fixed` precisely when its title was truthy, changed, and the write
succeeded. -/
theorem processPlace_eq (env : Env) (c : Nat × Nat) (p : Place) :
    processPlace env c p = (c.1 + 1, c.2 + (if wasFixed env p then 1 else 0)) := by
  rw [processPlace, wasFixed]
  generalize (sanitize_text env.respOf p.title).1 = nt
  by_cases h1 : p.title = [] <;> by_cases h2 : p.title = nt <;>
    by_cases h3 : (update_place env p.id nt []).1 = true <;>
    simp [h1, h2, h3]

/-- Over a page, `total_scanned` advances by the page length and
`total_fixed` by the number of records that were successfully fixed. -/
theorem processPage_eq (env : Env) : ∀ places : List Place, ∀ c : Nat × Nat,
    processPage env c places =
      (c.1 + places.length, c.2 + places.countP (wasFixed env)) := by
  intro places
  induction places with
  | nil => intro c; simp [processPage]
  | cons p ps ih =>
    intro c
    have hstep : processPage env c (p :: ps) =
        processPage env (processPlace env c p) ps := by
      rw [processPage, processPage, List.foldl_cons]
    rw [hstep, ih, processPlace_eq]
    simp only [List.length_cons, List.countP_cons]
    by_cases hw : wasFixed env p <;> simp [hw] <;> omega

/-- Exact characterization of the final counters: starting from counters
`c`, the loop ends with `total_scanned` advanced by the total number of
records in the processed pages and `total_fixed` advanced by the number of
successfully fixed records among them. -/
theorem mainLoop_counters (env : Env) : ∀ fuel offset : Nat, ∀ c : Nat × Nat,
    ∀ s f : Nat, ∀ tr : List (Nat × List Place),
    mainLoop env fuel offset c = some (s, f, tr) →
    s = c.1 + (tr.map (fun q => q.2.length)).sum ∧
    f = c.2 + (tr.map (fun q => q.2.countP (wasFixed env))).sum := by
  intro fuel
  induction fuel with
  | zero =>
    intro offset c s f tr h
    rw [mainLoop_zero] at h
    exact absurd h (by simp)
  | succ fuel ih =>
    intro offset c s f tr h
    rw [mainLoop_succ] at h
    simp only [] at h
    by_cases hempty : fetch_places env offset batch_size = []
    · rw [if_pos hempty] at h
      simp only [Option.some.injEq, Prod.mk.injEq] at h
      obtain ⟨hs, hf, htr⟩ := h
      subst hs; subst hf; subst htr
      simp
    · rw [if_neg hempty] at h
      by_cases hshort : (fetch_places env offset batch_size).length < batch_size
      · rw [if_pos hshort] at h
        simp only [Option.some.injEq, Prod.mk.injEq] at h
        obtain ⟨hs, hf, htr⟩ := h
        subst hs; subst hf; subst htr
        rw [processPage_eq]
        simp
      · rw [if_neg hshort] at h
        rcases hrec : mainLoop env fuel (offset + batch_size)
            (processPage env c (fetch_places env offset batch_size)) with _ | trip
        · rw [hrec] at h; exact absurd h (by simp)
        · obtain ⟨s', f', tr'⟩ := trip
          rw [hrec] at h
          simp only [Option.some.injEq, Prod.mk.injEq] at h
          obtain ⟨hs, hf, htr⟩ := h
          subst hs; subst hf; subst htr
          obtain ⟨ihs, ihf⟩ := ih (offset + batch_size) _ s' f' tr' hrec
          rw [processPage_eq] at ihs ihf
          constructor
          · rw [ihs]; simp; omega
          · rw [ihf]; simp; omega

/-- If the pages at offsets `offset + batch_size * m` are full for `m < N`
and the page at `offset + batch_size * N` is the first short one, the loop
terminates within `N + 1` iterations, processing exactly the pages at
offsets `offset, offset + batch_size, …`, the final short page included
exactly when it is nonempty. -/
theorem mainLoop_pagination (env : Env) : ∀ N : Nat, ∀ offset : Nat, ∀ c : Nat × Nat,
    (∀ m, m < N →
      (fetch_places env (offset + batch_size * m) batch_size).length = batch_size) →
    (fetch_places env (offset + batch_size * N) batch_size).length < batch_size →
    ∃ s f, mainLoop env (N + 1) offset c = some (s, f,
      ((List.range N).map (fun m => (offset + batch_size * m,
        fetch_places env (offset + batch_size * m) batch_size))) ++
      (if fetch_places env (offset + batch_size * N) batch_size = [] then []
       else [(offset + batch_size * N,
         fetch_places env (offset + batch_size * N) batch_size)])) := by
  intro N
  induction N with
  | zero =>
    intro offset c _ hshort
    simp only [Nat.mul_zero, Nat.add_zero] at hshort ⊢
    by_cases hempty : fetch_places env offset batch_size = []
    · exact ⟨c.1, c.2, by rw [mainLoop_succ]; simp [hempty]⟩
    · refine ⟨(processPage env c (fetch_places env offset batch_size)).1,
        (processPage env c (fetch_places env offset batch_size)).2, ?_⟩
      rw [mainLoop_succ]
      simp only [if_neg hempty, if_pos hshort, if_neg hempty, List.range_zero,
        List.map_nil, List.nil_append]
  | succ N ih =>
    intro offset c hfull hshort
    have h0 := hfull 0 (Nat.succ_pos N)
    simp only [Nat.mul_zero, Nat.add_zero] at h0
    have hne : fetch_places env offset batch_size ≠ [] := by
      intro hnil; rw [hnil] at h0; simp [batch_size] at h0
    have hnotshort : ¬ (fetch_places env offset batch_size).length < batch_size := by
      rw [h0]; exact Nat.lt_irrefl _
    obtain ⟨s, f, hrun⟩ := ih (offset + batch_size)
      (processPage env c (fetch_places env offset batch_size))
      (fun m hm => by
        have hm' := hfull (m + 1) (Nat.succ_lt_succ hm)
        rw [show offset + batch_size * (m + 1) =
          offset + batch_size + batch_size * m by ring] at hm'
        exact hm')
      (by
        rw [show offset + batch_size + batch_size * N =
          offset + batch_size * (N + 1) by ring]
        exact hshort)
    refine ⟨s, f, ?_⟩
    rw [mainLoop_succ]
    simp only [if_neg hne, if_neg hnotshort, hrun]
    rw [List.range_succ_eq_map, List.map_cons, List.map_map]
    simp only [Nat.mul_zero, Nat.add_zero, List.cons_append, Option.some.injEq,
      Prod.mk.injEq, true_and]
    congr 1
    congr 1
    · apply List.map_congr_left
      intro m _
      simp only [Function.comp_apply, Nat.succ_eq_add_one]
      rw [show offset + batch_size * (m + 1) =
        offset + batch_size + batch_size * m by ring]
    · rw [show offset + batch_size * (N + 1) =
        offset + batch_size + batch_size * N by ring]

theorem sum_countP_le (env : Env) : ∀ tr : List (Nat × List Place),
    (tr.map (fun q => q.2.countP (wasFixed env))).sum ≤
    (tr.map (fun q => q.2.length)).sum := by
  intro tr
  induction tr with
  | nil => simp
  | cons q tr ih =>
    simp only [List.map_cons, List.sum_cons]
    exact Nat.add_le_add (List.countP_le_length _) ih

/-! ## Claims -/

/-- C1: For every input text, if the oracle call succeeds (HTTP 200) with a
nonempty candidate list and the length of the first candidate's trimmed text
differs from the input's length by more than the fixed threshold 5, then
`ask_gemini_to_fix` returns the original input unchanged; otherwise it
returns the trimmed candidate with embedded double-quote characters
stripped.  (The length gate is applied to the trimmed, not yet
quote-stripped, candidate, and the quotes are stripped on return.) -/
theorem oracle_sanity_gate (text c : List Char) (cs : List (List Char)) :
    (5 < (((pyStrip c).length : Int) - (text.length : Int)).natAbs →
      ask_gemini_to_fix (OracleOutcome.response 200 (some (c :: cs))) text = text) ∧
    ((((pyStrip c).length : Int) - (text.length : Int)).natAbs ≤ 5 →
      ask_gemini_to_fix (OracleOutcome.response 200 (some (c :: cs))) text =
        pyReplace (pyStrip c) ['\"'] []) := by
  constructor
  · intro h
    simp [ask_gemini_to_fix, h]
  · intro h
    have hn : ¬ 5 < (((pyStrip c).length : Int) - (text.length : Int)).natAbs :=
      Nat.not_lt.mpr h
    simp [ask_gemini_to_fix, hn]

/-- Witness for C1: a much-too-long candidate is rejected and the input kept;
a near-length candidate is accepted, trimmed, and quote-stripped. -/
theorem oracle_sanity_gate_witness :
    ask_gemini_to_fix (OracleOutcome.response 200 (some ["0123456789abcdef".toList]))
      ("ab".toList) = "ab".toList ∧
    ask_gemini_to_fix (OracleOutcome.response 200 (some [(" x\"y ".toList)]))
      ("abc".toList) = pyReplace (pyStrip (" x\"y ".toList)) ['\"'] [] :=
  ⟨(oracle_sanity_gate ("ab".toList) ("0123456789abcdef".toList) []).1 (by decide),
   (oracle_sanity_gate ("abc".toList) (" x\"y ".toList) []).2 (by decide)⟩

/-- C2 counterexample: the input `"Pore? ok?"` contains exactly one
dictionary key (`"Pore?"`, and no other key), yet sanitization performs an
oracle call (count 1, not 0), because a literal `?` outside the key survives
the dictionary pass and triggers the heuristic.  This refutes the claim
that sanitization of a one-key input performs no oracle call. -/
theorem sanitize_single_key_cex :
    (("Pore?".toList, "Poreč".toList) ∈ MANUAL_FIXES ∧
      "Pore?".toList <:+: ("Pore? ok?".toList) ∧
      (∀ q ∈ MANUAL_FIXES, q.1 ≠ "Pore?".toList →
        ¬ q.1 <:+: ("Pore? ok?".toList))) ∧
    (sanitize_text (fun _ => OracleOutcome.exn) ("Pore? ok?".toList)).2 = 1 := by
  decide

/-- C2 (amended): For every input text containing exactly one dictionary key
`k` as a substring (and no other key), provided the text with `k` replaced
by its mapped value contains no residual corruption marker (`?` or `Ã`),
sanitization returns exactly the input with every occurrence of `k` replaced
by its mapped value, and performs no oracle call. -/
theorem sanitize_single_key (respOf : List Char → OracleOutcome)
    (text k r : List Char) (hkr : (k, r) ∈ MANUAL_FIXES) (hk : k <:+: text)
    (huniq : ∀ q ∈ MANUAL_FIXES, q.1 ≠ k → ¬ q.1 <:+: text)
    (hq : '?' ∉ pyReplace text k r) (hA : 'Ã' ∉ pyReplace text k r) :
    sanitize_text respOf text = (pyReplace text k r, 0) := by
  have happ := applyFixes_single text k r hkr hk huniq hq hA
  have hkne : k ≠ [] := ((manual_fixes_facts (k, r) hkr).1).1
  have htne : text ≠ [] := by
    intro hnil
    subst hnil
    have hlen := hk.length_le
    simp only [List.length_nil, Nat.le_zero, List.length_eq_zero] at hlen
    exact hkne hlen
  rw [sanitize_text, if_neg htne]
  simp [happ, occurs_singleton_false _ _ hq, occurs_singleton_false _ _ hA]

/-- Witness for C2 (amended): `"Pore? Bay"` contains exactly the key
`"Pore?"`; the corrected value `"Poreč Bay"` is marker-free, so the result
is the single replacement with no oracle call. -/
theorem sanitize_single_key_witness :
    sanitize_text (fun _ => OracleOutcome.exn) ("Pore? Bay".toList) =
      (pyReplace ("Pore? Bay".toList) ("Pore?".toList) ("Poreč".toList), 0) :=
  sanitize_single_key (fun _ => OracleOutcome.exn) ("Pore? Bay".toList)
    ("Pore?".toList) ("Poreč".toList) (by decide) (by decide) (by decide)
    (by decide) (by decide)

/-- C3: For every input text whose dictionary-corrected value still contains
a literal `?`, `sanitize_text` invokes the oracle exactly once, on the
dictionary-corrected value, and returns its answer; the invocation count 1
also counts the single unconditional rate-limit delay that follows the
invocation. -/
theorem sanitize_residual_oracle (respOf : List Char → OracleOutcome)
    (text : List Char) (h : '?' ∈ applyFixes text) :
    sanitize_text respOf text =
      (ask_gemini_to_fix (respOf (applyFixes text)) (applyFixes text), 1) := by
  have htne : text ≠ [] := by
    intro hnil
    subst hnil
    rw [show applyFixes [] = [] from rfl] at h
    exact absurd h (List.not_mem_nil _)
  rw [sanitize_text, if_neg htne]
  simp [(occurs_singleton '?' (applyFixes text)).mpr h]

/-- Witness for C3: `"Gr??njan"` matches no dictionary key, keeps its two
question marks, and triggers exactly one oracle call on itself. -/
theorem sanitize_residual_oracle_witness :
    sanitize_text (fun _ => OracleOutcome.exn) ("Gr??njan".toList) =
      (ask_gemini_to_fix
        ((fun _ => OracleOutcome.exn) (applyFixes ("Gr??njan".toList)))
        (applyFixes ("Gr??njan".toList)), 1) :=
  sanitize_residual_oracle (fun _ => OracleOutcome.exn) ("Gr??njan".toList)
    (by decide)

/-- C4: For every input text containing no dictionary key as a substring and
no residual corruption marker (no `?` and no `Ã`), sanitization is the
identity and performs no oracle call; in particular the empty/absent value
(which satisfies these hypotheses) is returned unchanged. -/
theorem sanitize_identity (respOf : List Char → OracleOutcome) (text : List Char)
    (hkeys : ∀ q ∈ MANUAL_FIXES, ¬ q.1 <:+: text)
    (hq : '?' ∉ text) (hA : 'Ã' ∉ text) :
    sanitize_text respOf text = (text, 0) := by
  by_cases htne : text = []
  · subst htne; rfl
  · have happ : applyFixes text = text :=
      foldl_fixStep_id MANUAL_FIXES text
        (fun q hq' => occurs_eq_false _ _ (hkeys q hq'))
    rw [sanitize_text, if_neg htne]
    simp [happ, occurs_singleton_false _ _ hq, occurs_singleton_false _ _ hA]

/-- Witness for C4: a clean text and the empty value both pass through
unchanged with no oracle call. -/
theorem sanitize_identity_witness :
    sanitize_text (fun _ => OracleOutcome.exn) ("Hello".toList) =
      ("Hello".toList, 0) ∧
    sanitize_text (fun _ => OracleOutcome.exn) [] = ([], 0) :=
  ⟨sanitize_identity (fun _ => OracleOutcome.exn) ("Hello".toList)
      (by decide) (by decide) (by decide),
   sanitize_identity (fun _ => OracleOutcome.exn) []
      (by decide) (by decide) (by decide)⟩

/-- C5: If the pages fetched at offsets `batch_size * m` are full for
`m < N` and the page at `batch_size * N` is the first short one, then the
pagination loop of `main` terminates within `N + 1` iterations: it
processes exactly the `N` full pages plus the final short page (the latter
exactly when it is nonempty — an empty page stops the loop before being
processed), with consecutive processed offsets advancing by `batch_size`. -/
theorem pagination_terminates (env : Env) (N : Nat)
    (hfull : ∀ m, m < N →
      (fetch_places env (batch_size * m) batch_size).length = batch_size)
    (hshort : (fetch_places env (batch_size * N) batch_size).length < batch_size) :
    ∃ s f, main env (N + 1) = some (s, f,
      ((List.range N).map (fun m => (batch_size * m,
        fetch_places env (batch_size * m) batch_size))) ++
      (if fetch_places env (batch_size * N) batch_size = [] then []
       else [(batch_size * N, fetch_places env (batch_size * N) batch_size)])) := by
  have h := mainLoop_pagination env N 0 (0, 0)
    (fun m hm => by simpa using hfull m hm)
    (by simpa using hshort)
  simpa [main] using h

/-- Witness for C5: against the test store whose very first page is empty,
the loop terminates immediately with an empty processed-page trace. -/
theorem pagination_terminates_witness :
    ∃ s f, main testEnvA 1 = some (s, f,
      ((List.range 0).map (fun m => (batch_size * m,
        fetch_places testEnvA (batch_size * m) batch_size))) ++
      (if fetch_places testEnvA (batch_size * 0) batch_size = [] then []
       else [(batch_size * 0, fetch_places testEnvA (batch_size * 0) batch_size)])) :=
  pagination_terminates testEnvA 0 (fun m hm => absurd hm (Nat.not_lt_zero m))
    (by decide)

/-- C6: On any failure of the oracle call — an exception during the call or
extraction, a non-success HTTP status, an absent candidate list, or an empty
candidate list — `ask_gemini_to_fix` returns the original input unchanged;
being a total function of the modelled outcome, it propagates no failure. -/
theorem oracle_failure_identity (text : List Char) (status : Nat)
    (cands : Option (List (List Char))) (hst : status ≠ 200) :
    ask_gemini_to_fix OracleOutcome.exn text = text ∧
    ask_gemini_to_fix (OracleOutcome.response status cands) text = text ∧
    ask_gemini_to_fix (OracleOutcome.response 200 none) text = text ∧
    ask_gemini_to_fix (OracleOutcome.response 200 (some [])) text = text := by
  refine ⟨rfl, ?_, rfl, rfl⟩
  simp [ask_gemini_to_fix, hst]

/-- Witness for C6 at a concrete input and a concrete non-200 status. -/
theorem oracle_failure_identity_witness :
    ask_gemini_to_fix OracleOutcome.exn ("abc".toList) = "abc".toList ∧
    ask_gemini_to_fix (OracleOutcome.response 500 (some ["xy".toList]))
      ("abc".toList) = "abc".toList ∧
    ask_gemini_to_fix (OracleOutcome.response 200 none) ("abc".toList) =
      "abc".toList ∧
    ask_gemini_to_fix (OracleOutcome.response 200 (some [])) ("abc".toList) =
      "abc".toList :=
  oracle_failure_identity ("abc".toList) 500 (some ["xy".toList]) (by decide)

/-- C7: With no field values provided, `update_place` performs no network
call (0 PATCH requests) and reports non-success; when some field is
provided, exactly one PATCH is issued and success is reported if and only if
the store answers 200 or 204. -/
theorem writer_success_iff (env : Env) (pid : Nat) (title desc : List Char) :
    update_place env pid [] [] = (false, 0) ∧
    (title ≠ [] ∨ desc ≠ [] →
      (update_place env pid title desc).2 = 1 ∧
      ((update_place env pid title desc).1 = true ↔
        env.patch pid (updatePayload title desc) ∈ ([200, 204] : List Nat))) := by
  constructor
  · rfl
  · intro h
    have hpay : updatePayload title desc ≠ [] := by
      rcases h with h | h
      · simp [updatePayload, h]
      · by_cases ht : title = [] <;> simp [updatePayload, h, ht]
    have hupd : update_place env pid title desc =
        (decide (env.patch pid (updatePayload title desc) ∈
          ([200, 204] : List Nat)), 1) := by
      simp only [update_place]
      rw [if_neg hpay]
    rw [hupd]
    exact ⟨rfl, by simp⟩

/-- Witness for C7: empty update refused without a call; a one-field update
against the 204-answering test store issues one PATCH and succeeds. -/
theorem writer_success_iff_witness :
    update_place testEnvB 5 [] [] = (false, 0) ∧
    ((update_place testEnvB 5 ("x".toList) []).2 = 1 ∧
      ((update_place testEnvB 5 ("x".toList) []).1 = true ↔
        testEnvB.patch 5 (updatePayload ("x".toList) []) ∈
          ([200, 204] : List Nat))) :=
  ⟨(writer_success_iff testEnvB 5 ("x".toList) []).1,
   (writer_success_iff testEnvB 5 ("x".toList) []).2 (Or.inl (by decide))⟩

/-- C8: The loop counters satisfy the invariant `total_fixed ≤
total_scanned` at every point: starting from any counters with
`fixed ≤ scanned`, a terminating run ends with `fixed ≤ scanned`; moreover
`total_scanned` grows by exactly one per fetched record of the processed
pages and `total_fixed` by exactly the number of scanned records whose title
changed and whose write succeeded. -/
theorem counters_invariant (env : Env) (fuel offset : Nat) (c : Nat × Nat)
    (s f : Nat) (tr : List (Nat × List Place)) (hle : c.2 ≤ c.1)
    (h : mainLoop env fuel offset c = some (s, f, tr)) :
    f ≤ s ∧ s = c.1 + (tr.map (fun q => q.2.length)).sum ∧
    f = c.2 + (tr.map (fun q => q.2.countP (wasFixed env))).sum := by
  obtain ⟨hs, hf⟩ := mainLoop_counters env fuel offset c s f tr h
  refine ⟨?_, hs, hf⟩
  rw [hs, hf]
  have hsum := sum_countP_le env tr
  omega

/-- Witness for C8 on a concrete one-page (empty) run. -/
theorem counters_invariant_witness :
    (0 : Nat) ≤ 0 ∧
    (0 : Nat) = 0 + (([] : List (Nat × List Place)).map
      (fun q => q.2.length)).sum ∧
    (0 : Nat) = 0 + (([] : List (Nat × List Place)).map
      (fun q => q.2.countP (wasFixed testEnvA))).sum :=
  counters_invariant testEnvA 1 0 (0, 0) 0 0 [] (Nat.le_refl 0) rfl

/-- C9: Whenever the oracle candidate passes the length sanity gate, the
value returned by `ask_gemini_to_fix` contains no double-quote character at
all — the stripping `fixed.replace('"', '')` removes every occurrence, not
only surrounding ones. -/
theorem oracle_result_no_quote (text c : List Char) (cs : List (List Char))
    (hgate : (((pyStrip c).length : Int) - (text.length : Int)).natAbs ≤ 5) :
    '\"' ∉ ask_gemini_to_fix (OracleOutcome.response 200 (some (c :: cs))) text := by
  have hn : ¬ 5 < (((pyStrip c).length : Int) - (text.length : Int)).natAbs :=
    Nat.not_lt.mpr hgate
  have hres : ask_gemini_to_fix (OracleOutcome.response 200 (some (c :: cs))) text =
      pyReplace (pyStrip c) ['\"'] [] := by
    simp [ask_gemini_to_fix, hn]
  rw [hres, pyReplace]
  exact replaceAux_no_quote _ _ (Nat.le_refl _)

/-- Witness for C9: a candidate containing an embedded quote is returned
with every quote removed. -/
theorem oracle_result_no_quote_witness :
    '\"' ∉ ask_gemini_to_fix (OracleOutcome.response 200 (some [("x\"y".toList)]))
      ("abc".toList) :=
  oracle_result_no_quote ("abc".toList) ("x\"y".toList) [] (by decide)

/-- C10: The program never writes an empty title: if sanitization yields the
empty string for a nonempty original title, the falsy-field check of
`update_place` drops the title from the payload, no PATCH is issued (count
0) with non-success reported, and the record's loop iteration leaves
`total_fixed` unchanged (the record counts as a failed update, not an
overwrite). -/
theorem no_empty_title_write (env : Env) (sc fx : Nat) (p : Place)
    (hne : p.title ≠ []) (hsan : (sanitize_text env.respOf p.title).1 = []) :
    update_place env p.id ((sanitize_text env.respOf p.title).1) [] = (false, 0) ∧
    processPlace env (sc, fx) p = (sc + 1, fx) := by
  constructor
  · rw [hsan]; rfl
  · have hcond : p.title ≠ [] ∧ p.title ≠ (sanitize_text env.respOf p.title).1 :=
      ⟨hne, by rw [hsan]; exact hne⟩
    have hupd : (update_place env p.id
        ((sanitize_text env.respOf p.title).1) []).1 = false := by
      rw [hsan]; rfl
    simp only [processPlace]
    rw [if_pos hcond]
    simp [hupd]

/-- Witness for C10: the oracle answers with an empty candidate text, so the
title `"?ab"` sanitizes to the empty string; no PATCH is issued and the
counters record a scan but no fix. -/
theorem no_empty_title_write_witness :
    update_place testEnvB 7 ((sanitize_text testEnvB.respOf ("?ab".toList)).1) [] =
      (false, 0) ∧
    processPlace testEnvB (3, 2) ⟨7, "?ab".toList, []⟩ = (3 + 1, 2) :=
  no_empty_title_write testEnvB 3 2 ⟨7, "?ab".toList, []⟩ (by decide) (by decide)

end RepairDB
